import Mathlib

/-!
Embedding of the conversation-session engine of the AI-Chat-CLI repository
(file `cmd/simple_chat.go`, plus the `ProviderConfig` record from
`internal/config/config.go`).  Strings are modelled through their character
lists; the byte-level view used by `truncateString` is modelled through an
explicit UTF-8 encoder.  The HTTP transport and the JSON decoder are external
to the program and are modelled as an oracle parameter.
-/

/-- Message 表示对话消息 (role-tagged chat message). -/
structure Message where
  role : String
  content : String
deriving DecidableEq, Repr

/-- ChatRequest: OpenAI API request structure (model, messages, max_tokens, temperature). -/
structure ChatRequest where
  model : String
  messages : List Message
  maxTokens : Int
  temperature : ℚ
deriving DecidableEq, Repr

/-- Usage statistics embedded in a ChatResponse. -/
structure Usage where
  promptTokens : Int
  completionTokens : Int
  totalTokens : Int
deriving DecidableEq, Repr

/-- One element of the `choices` array of a ChatResponse. -/
structure Choice where
  message : Message
deriving DecidableEq, Repr

/-- ChatResponse: OpenAI API response structure. -/
structure ChatResponse where
  choices : List Choice
  usage : Usage
deriving DecidableEq, Repr

/-- ProviderConfig from `internal/config/config.go` (the fields the chat command reads). -/
structure ProviderConfig where
  apiKey : String
  baseURL : String
  model : String
  maxTokens : Int
  extra : List (String × String) := []
deriving DecidableEq, Repr

/-- Go `unicode.IsSpace`: the White_Space property (Latin-1 fast path plus the
Unicode White_Space table). -/
def goIsSpace (c : Char) : Bool :=
  let n := c.toNat
  (9 ≤ n && n ≤ 13) || n == 32 || n == 0x85 || n == 0xA0 || n == 0x1680 ||
    (0x2000 ≤ n && n ≤ 0x200A) || n == 0x2028 || n == 0x2029 || n == 0x202F ||
    n == 0x205F || n == 0x3000

/-- The retention test of `cleanInput`: Go
`r == ' ' || r == '\t' || (r >= 32 && r <= 126) || r > 127`. -/
def keepChar (c : Char) : Bool :=
  c == ' ' || c == '\t' || (32 ≤ c.toNat && c.toNat ≤ 126) || 127 < c.toNat

/-- Go `strings.TrimSpace` on a character list: drop White_Space characters
from both ends. -/
def goTrimSpace (l : List Char) : List Char :=
  ((l.dropWhile goIsSpace).reverse.dropWhile goIsSpace).reverse

/-- Accumulator worker for `goFields`: `cur` holds the current field reversed. -/
def fieldsAux : List Char → List Char → List (List Char)
  | cur, [] => if cur = [] then [] else [cur.reverse]
  | cur, c :: cs =>
    if goIsSpace c then
      if cur = [] then fieldsAux [] cs else cur.reverse :: fieldsAux [] cs
    else fieldsAux (c :: cur) cs

/-- Go `strings.Fields`: split around runs of White_Space characters. -/
def goFields (l : List Char) : List (List Char) :=
  fieldsAux [] l

/-- Go `strings.Join(ws, " ")` on character lists. -/
def joinSp : List (List Char) → List Char
  | [] => []
  | w :: ws =>
    match ws with
    | [] => w
    | _ :: _ => w ++ ' ' :: joinSp ws

/-- cleanInput on character lists: trim, filter by `keepChar` while tracking
whether a character other than space and tab was kept, then collapse
whitespace runs via Fields/Join (`cmd/simple_chat.go`, cleanInput). -/
def cleanList (l : List Char) : List Char :=
  let cleaned := goTrimSpace l
  let kept := cleaned.filter keepChar
  if kept.any (fun c => !(c == ' ' || c == '\t')) then joinSp (goFields kept)
  else []

/-- cleanInput 清理输入字符串 (sanitize one input line). -/
def cleanInput (s : String) : String :=
  ⟨cleanList s.data⟩

/-- Modelled from the spec sentence of claim C4 (for comparison with
`cleanList`): trim, retain exactly space/tab/printable-ASCII/above-127,
collapse whitespace runs to single spaces, and return empty text whenever no
non-whitespace character survives the filtering. -/
def cleanSpecList (l : List Char) : List Char :=
  let kept := (goTrimSpace l).filter keepChar
  if kept.all goIsSpace then [] else joinSp (goFields kept)

-- basic facts about fieldsAux / goFields ------------------------------------

theorem fieldsAux_allspace (ws : List Char) (hws : ∀ c ∈ ws, goIsSpace c) :
    ∀ cur, fieldsAux cur ws = if cur = [] then [] else [cur.reverse] := by
  induction ws with
  | nil => intro cur; rfl
  | cons c cs ih =>
    intro cur
    have hc : goIsSpace c := hws c (List.mem_cons_self ..)
    have hcs : ∀ x ∈ cs, goIsSpace x := fun x hx => hws x (List.mem_cons_of_mem _ hx)
    simp only [fieldsAux, hc, if_true]
    by_cases hcur : cur = []
    · simp [hcur, ih hcs]
    · simp [hcur, ih hcs]

theorem goFields_allspace (ws : List Char) (hws : ∀ c ∈ ws, goIsSpace c) :
    goFields ws = [] := by
  simp [goFields, fieldsAux_allspace ws hws]

theorem fieldsAux_ne_nil (l : List Char) :
    ∀ cur w, w ∈ fieldsAux cur l → w ≠ [] := by
  induction l with
  | nil =>
    intro cur w hw
    simp only [fieldsAux] at hw
    split at hw
    · simp at hw
    · next hcur =>
      simp only [List.mem_singleton] at hw
      subst hw
      simpa using hcur
  | cons c cs ih =>
    intro cur w hw
    simp only [fieldsAux] at hw
    split at hw
    · split at hw
      · exact ih [] w hw
      · next hcur =>
        rcases List.mem_cons.mp hw with h | h
        · subst h; simpa using hcur
        · exact ih [] w h
    · exact ih (c :: cur) w hw

theorem fieldsAux_nonspace (l : List Char) :
    ∀ cur, (∀ c ∈ cur, goIsSpace c = false) →
      ∀ w ∈ fieldsAux cur l, ∀ c ∈ w, goIsSpace c = false := by
  induction l with
  | nil =>
    intro cur hcur w hw c hc
    simp only [fieldsAux] at hw
    split at hw
    · simp at hw
    · simp only [List.mem_singleton] at hw
      subst hw
      exact hcur c (List.mem_reverse.mp hc)
  | cons a as ih =>
    intro cur hcur w hw c hc
    simp only [fieldsAux] at hw
    split at hw
    · split at hw
      · exact ih [] (by simp) w hw c hc
      · rcases List.mem_cons.mp hw with h | h
        · subst h; exact hcur c (List.mem_reverse.mp hc)
        · exact ih [] (by simp) w h c hc
    · next ha =>
      refine ih (a :: cur) ?_ w hw c hc
      intro x hx
      rcases List.mem_cons.mp hx with h | h
      · subst h; simpa using ha
      · exact hcur x h

theorem fieldsAux_mem (l : List Char) :
    ∀ cur w, w ∈ fieldsAux cur l → ∀ c ∈ w, c ∈ cur ∨ c ∈ l := by
  induction l with
  | nil =>
    intro cur w hw c hc
    simp only [fieldsAux] at hw
    split at hw
    · simp at hw
    · simp only [List.mem_singleton] at hw
      subst hw
      exact Or.inl (List.mem_reverse.mp hc)
  | cons a as ih =>
    intro cur w hw c hc
    simp only [fieldsAux] at hw
    split at hw
    · split at hw
      · rcases ih [] w hw c hc with h | h
        · simp at h
        · exact Or.inr (List.mem_cons_of_mem _ h)
      · rcases List.mem_cons.mp hw with h | h
        · subst h; exact Or.inl (List.mem_reverse.mp hc)
        · rcases ih [] w h c hc with h' | h'
          · simp at h'
          · exact Or.inr (List.mem_cons_of_mem _ h')
    · rcases ih (a :: cur) w hw c hc with h | h
      · rcases List.mem_cons.mp h with h' | h'
        · subst h'; exact Or.inr (List.mem_cons_self ..)
        · exact Or.inl h'
      · exact Or.inr (List.mem_cons_of_mem _ h)

theorem fieldsAux_word (w : List Char) (hw : ∀ c ∈ w, goIsSpace c = false) :
    ∀ cur t, fieldsAux cur (w ++ t) = fieldsAux (w.reverse ++ cur) t := by
  induction w with
  | nil => intro cur t; rfl
  | cons c w' ih =>
    intro cur t
    have hc : goIsSpace c = false := hw c (List.mem_cons_self ..)
    have hw' : ∀ x ∈ w', goIsSpace x = false := fun x hx => hw x (List.mem_cons_of_mem _ hx)
    simp only [List.cons_append, fieldsAux, hc, Bool.false_eq_true, if_false,
      List.reverse_cons, List.append_assoc, List.singleton_append]
    exact ih hw' (c :: cur) t

theorem goFields_joinSp (ws : List (List Char))
    (h : ∀ w ∈ ws, w ≠ [] ∧ ∀ c ∈ w, goIsSpace c = false) :
    goFields (joinSp ws) = ws := by
  induction ws with
  | nil => simp [goFields, fieldsAux, joinSp]
  | cons w rest ih =>
    obtain ⟨hne, hns⟩ := h w (List.mem_cons_self ..)
    have hrest : ∀ x ∈ rest, x ≠ [] ∧ ∀ c ∈ x, goIsSpace c = false :=
      fun x hx => h x (List.mem_cons_of_mem _ hx)
    have hwrev : w.reverse ≠ [] := by simpa using hne
    cases rest with
    | nil =>
      have hj : joinSp [w] = w := by simp [joinSp]
      rw [hj]
      unfold goFields
      have hstep := fieldsAux_word w hns [] []
      simp only [List.append_nil] at hstep
      rw [hstep]
      simp only [fieldsAux, if_neg hwrev, List.reverse_reverse]
    | cons r rs =>
      have hj : joinSp (w :: r :: rs) = w ++ ' ' :: joinSp (r :: rs) := by simp [joinSp]
      rw [hj]
      unfold goFields
      rw [fieldsAux_word w hns [] (' ' :: joinSp (r :: rs))]
      rw [List.append_nil]
      have hsp : goIsSpace ' ' = true := by decide
      simp only [fieldsAux, hsp, if_true, if_neg hwrev, List.reverse_reverse]
      have hih := ih hrest
      unfold goFields at hih
      rw [hih]

theorem joinSp_nil : joinSp [] = [] := by
  simp [joinSp]

theorem joinSp_single (w : List Char) : joinSp [w] = w := by
  simp [joinSp]

theorem joinSp_cons₂ (w r : List Char) (rs : List (List Char)) :
    joinSp (w :: r :: rs) = w ++ ' ' :: joinSp (r :: rs) := by
  simp [joinSp]

theorem joinSp_mem (ws : List (List Char)) :
    ∀ c ∈ joinSp ws, c = ' ' ∨ ∃ w ∈ ws, c ∈ w := by
  induction ws with
  | nil => intro c hc; rw [joinSp_nil] at hc; simp at hc
  | cons w rest ih =>
    cases rest with
    | nil =>
      intro c hc
      rw [joinSp_single] at hc
      exact Or.inr ⟨w, List.mem_cons_self .., hc⟩
    | cons r rs =>
      intro c hc
      rw [joinSp_cons₂] at hc
      rcases List.mem_append.mp hc with h | h
      · exact Or.inr ⟨w, List.mem_cons_self .., h⟩
      · rcases List.mem_cons.mp h with h' | h'
        · exact Or.inl h'
        · rcases ih c h' with h'' | ⟨x, hx, hcx⟩
          · exact Or.inl h''
          · exact Or.inr ⟨x, List.mem_cons_of_mem _ hx, hcx⟩

theorem joinSp_reverse_head (ws : List (List Char)) (hne : ws ≠ [])
    (h : ∀ w ∈ ws, w ≠ [] ∧ ∀ c ∈ w, goIsSpace c = false) :
    ∃ c t', (joinSp ws).reverse = c :: t' ∧ goIsSpace c = false := by
  induction ws with
  | nil => cases hne rfl
  | cons w rest ih =>
    obtain ⟨hwne, hwns⟩ := h w (List.mem_cons_self ..)
    cases rest with
    | nil =>
      rcases List.eq_nil_or_concat w with h' | ⟨L, b, hLb⟩
      · cases hwne h'
      · refine ⟨b, L.reverse, ?_, hwns b (by simp [hLb])⟩
        rw [joinSp_single, hLb]
        simp
    | cons r rs =>
      obtain ⟨c, t', hct, hcs⟩ :=
        ih (by simp) (fun x hx => h x (List.mem_cons_of_mem _ hx))
      refine ⟨c, t' ++ ' ' :: w.reverse, ?_, hcs⟩
      rw [joinSp_cons₂, List.reverse_append, List.reverse_cons, hct]
      simp

theorem joinSp_head (w : List Char) (rest : List (List Char)) (hwne : w ≠ [])
    (hwns : ∀ c ∈ w, goIsSpace c = false) :
    ∃ a t'', joinSp (w :: rest) = a :: t'' ∧ goIsSpace a = false := by
  cases w with
  | nil => cases hwne rfl
  | cons a w' =>
    cases rest with
    | nil => exact ⟨a, w', by rw [joinSp_single], hwns a (List.mem_cons_self ..)⟩
    | cons r rs =>
      exact ⟨a, w' ++ ' ' :: joinSp (r :: rs), by rw [joinSp_cons₂]; rfl,
        hwns a (List.mem_cons_self ..)⟩

theorem goTrimSpace_joinSp (ws : List (List Char))
    (h : ∀ w ∈ ws, w ≠ [] ∧ ∀ c ∈ w, goIsSpace c = false) :
    goTrimSpace (joinSp ws) = joinSp ws := by
  cases ws with
  | nil => rw [joinSp_nil]; rfl
  | cons w rest =>
    obtain ⟨hwne, hwns⟩ := h w (List.mem_cons_self ..)
    obtain ⟨a, t'', hat, has⟩ := joinSp_head w rest hwne hwns
    obtain ⟨c, t', hct, hcs⟩ := joinSp_reverse_head (w :: rest) (by simp) h
    unfold goTrimSpace
    rw [hat, List.dropWhile_cons, if_neg (by simp [has]), ← hat]
    rw [hct, List.dropWhile_cons, if_neg (by simp [hcs]), ← hct, List.reverse_reverse]

theorem filter_keepChar_joinSp (ws : List (List Char))
    (h : ∀ w ∈ ws, ∀ c ∈ w, keepChar c = true) :
    (joinSp ws).filter keepChar = joinSp ws := by
  rw [List.filter_eq_self]
  intro a ha
  rcases joinSp_mem ws a ha with h' | ⟨w, hw, hcw⟩
  · subst h'; decide
  · exact h w hw a hcw

theorem any_valid_joinSp (ws : List (List Char)) (hne : ws ≠ [])
    (h : ∀ w ∈ ws, w ≠ [] ∧ ∀ c ∈ w, goIsSpace c = false) :
    (joinSp ws).any (fun c => !(c == ' ' || c == '\t')) = true := by
  cases ws with
  | nil => cases hne rfl
  | cons w rest =>
    obtain ⟨hwne, hwns⟩ := h w (List.mem_cons_self ..)
    obtain ⟨a, t'', hat, has⟩ := joinSp_head w rest hwne hwns
    rw [List.any_eq_true]
    refine ⟨a, by rw [hat]; exact List.mem_cons_self .., ?_⟩
    have h1 : a ≠ ' ' := by intro he; rw [he] at has; exact absurd has (by decide)
    have h2 : a ≠ '\t' := by intro he; rw [he] at has; exact absurd has (by decide)
    simp [h1, h2]

theorem cleanList_nil : cleanList [] = [] := by
  decide

theorem cleanList_joinSp (ws : List (List Char))
    (h : ∀ w ∈ ws, w ≠ [] ∧ ∀ c ∈ w, keepChar c = true ∧ goIsSpace c = false) :
    cleanList (joinSp ws) = joinSp ws := by
  cases hws : ws with
  | nil => rw [joinSp_nil]; exact cleanList_nil
  | cons w rest =>
    rw [← hws]
    have h1 : ∀ w ∈ ws, w ≠ [] ∧ ∀ c ∈ w, goIsSpace c = false :=
      fun x hx => ⟨(h x hx).1, fun c hc => ((h x hx).2 c hc).2⟩
    have h2 : ∀ w ∈ ws, ∀ c ∈ w, keepChar c = true :=
      fun x hx c hc => ((h x hx).2 c hc).1
    have htrim := goTrimSpace_joinSp ws h1
    have hfilt := filter_keepChar_joinSp ws h2
    have hany := any_valid_joinSp ws (by rw [hws]; simp) h1
    simp only [cleanList]
    rw [htrim, hfilt, if_pos hany, goFields_joinSp ws h1]

theorem goFields_props (l : List Char) :
    ∀ w ∈ goFields ((goTrimSpace l).filter keepChar),
      w ≠ [] ∧ ∀ c ∈ w, keepChar c = true ∧ goIsSpace c = false := by
  intro w hw
  have hw' : w ∈ fieldsAux [] ((goTrimSpace l).filter keepChar) := hw
  refine ⟨fieldsAux_ne_nil _ [] w hw', fun c hc => ⟨?_, ?_⟩⟩
  · have := fieldsAux_mem _ [] w hw' c hc
    rcases this with h | h
    · simp at h
    · exact (List.mem_filter.mp h).2
  · exact fieldsAux_nonspace _ [] (by simp) w hw' c hc

theorem cleanList_cases (l : List Char) :
    cleanList l = [] ∨
      ∃ ws, (∀ w ∈ ws, w ≠ [] ∧ ∀ c ∈ w, keepChar c = true ∧ goIsSpace c = false) ∧
        cleanList l = joinSp ws := by
  by_cases hany :
      ((goTrimSpace l).filter keepChar).any (fun c => !(c == ' ' || c == '\t')) = true
  · right
    refine ⟨goFields ((goTrimSpace l).filter keepChar), goFields_props l, ?_⟩
    simp only [cleanList]
    rw [if_pos hany]
  · left
    simp only [cleanList]
    rw [if_neg hany]

theorem cleanList_idem (l : List Char) : cleanList (cleanList l) = cleanList l := by
  rcases cleanList_cases l with h | ⟨ws, hws, h⟩
  · rw [h, cleanList_nil]
  · rw [h]
    exact cleanList_joinSp ws hws

theorem cleanList_eq_spec (l : List Char) : cleanList l = cleanSpecList l := by
  simp only [cleanList, cleanSpecList]
  by_cases hall : ((goTrimSpace l).filter keepChar).all goIsSpace = true
  · rw [if_pos hall]
    by_cases hany :
        ((goTrimSpace l).filter keepChar).any (fun c => !(c == ' ' || c == '\t')) = true
    · rw [if_pos hany, goFields_allspace _ (fun c hc => List.all_eq_true.mp hall c hc),
        joinSp_nil]
    · rw [if_neg hany]
  · rw [if_neg hall]
    have hany :
        ((goTrimSpace l).filter keepChar).any (fun c => !(c == ' ' || c == '\t')) = true := by
      rw [List.all_eq_true] at hall
      push_neg at hall
      obtain ⟨x, hx, hxs⟩ := hall
      have hxs' : goIsSpace x = false := by simpa using hxs
      have h1 : x ≠ ' ' := by intro he; rw [he] at hxs'; exact absurd hxs' (by decide)
      have h2 : x ≠ '\t' := by intro he; rw [he] at hxs'; exact absurd hxs' (by decide)
      rw [List.any_eq_true]
      exact ⟨x, hx, by simp [h1, h2]⟩
    rw [if_pos hany]

/-- C4: for every input, `cleanInput` agrees with the spec description
(`cleanSpecList`: trim ends, retain exactly space/tab/printable ASCII 32–126/
code points above 127, collapse whitespace runs to single spaces, return empty
text whenever no non-whitespace character survives the filtering), and the
four concrete examples of the spec hold. -/
theorem claimC4_cleanInput_spec :
    (∀ s : String, cleanInput s = ⟨cleanSpecList s.data⟩) ∧
      cleanInput "" = "" ∧ cleanInput "   " = "" ∧
      cleanInput "\x01\x02" = "" ∧ cleanInput "  hello   world  " = "hello world" :=
  ⟨fun s => congrArg String.mk (cleanList_eq_spec s.data),
    by decide, by decide, by decide, by decide⟩

/-- C5: the sanitizer is idempotent: cleanInput (cleanInput s) = cleanInput s
for every string s. -/
theorem claimC5_cleanInput_idempotent (s : String) :
    cleanInput (cleanInput s) = cleanInput s :=
  congrArg String.mk (cleanList_idem s.data)

/-- HttpReply: observable outcome of the HTTP POST: status code, raw body
text, and the result of JSON-decoding the body into a ChatResponse (`none`
models a decode failure; only consulted on status 200, as in the source). -/
structure HttpReply where
  status : Nat
  body : String
  decoded : Option ChatResponse
deriving DecidableEq, Repr

/-- ChatError: the error taxonomy of askQuestionWithHistory.  The
serialization step (json.Marshal) of the source cannot fail on this request
shape, so the model has no build-error case. -/
inductive ChatError where
  | sendError (msg : String)
  | apiError (status : Nat) (body : String)
  | decodeError
  | emptyResponse
deriving DecidableEq, Repr

/-- Error text as produced by the fmt.Errorf format strings of the source
(`请求发送失败: %w`, `API返回错误 %d: %s`, `解析响应失败: %w`, `API返回空响应`). -/
def errMsgList : ChatError → List Char
  | .sendError m => "请求发送失败: ".data ++ m.data
  | .apiError st body => "API返回错误 ".data ++ (toString st).data ++ ": ".data ++ body.data
  | .decodeError => "解析响应失败".data
  | .emptyResponse => "API返回空响应".data

/-- Request construction of askQuestionWithHistory: model and maxTokens
defaults, full history snapshot, fixed temperature 0.7. -/
def buildRequest (cfg : ProviderConfig) (history : List Message) : ChatRequest :=
  { model := if cfg.model = "" then "gpt-3.5-turbo" else cfg.model
    messages := history
    maxTokens := if cfg.maxTokens = 0 then 2000 else cfg.maxTokens
    temperature := 7 / 10 }

/-- URL the request is POSTed to: baseURL default plus `/chat/completions`. -/
def requestURL (cfg : ProviderConfig) : String :=
  (if cfg.baseURL = "" then "https://api.openai.com/v1" else cfg.baseURL) ++
    "/chat/completions"

/-- askQuestionWithHistory: append the user question to the history, send the
full history, and on success append the assistant answer taken from the first
choice.  The transport/decoder oracle `api` returns `Except.error` for a
client.Do failure. -/
def askQuestionWithHistory (cfg : ProviderConfig) (question : String)
    (history : List Message) (api : ChatRequest → Except String HttpReply) :
    Except ChatError (String × Usage) × List Message :=
  let history1 := history ++ [Message.mk "user" question]
  match api (buildRequest cfg history1) with
  | .error m => (.error (.sendError m), history1)
  | .ok reply =>
    if reply.status ≠ 200 then (.error (.apiError reply.status reply.body), history1)
    else
      match reply.decoded with
      | none => (.error .decodeError, history1)
      | some chatResp =>
        match chatResp.choices with
        | [] => (.error .emptyResponse, history1)
        | choice :: _ =>
          (.ok (choice.message.content, chatResp.usage),
            history1 ++ [Message.mk "assistant" choice.message.content])

/-- Turn counter printed by the source: len(history)/2, integer division. -/
def turnCount (history : List Message) : Nat :=
  history.length / 2

/-- Successive exchanges, each with its own question and transport oracle,
threading the history exactly as the interactive loop does. -/
def runExchanges (cfg : ProviderConfig) :
    List (String × (ChatRequest → Except String HttpReply)) → List Message → List Message
  | [], h => h
  | (q, api) :: rest, h => runExchanges cfg rest (askQuestionWithHistory cfg q h api).2

/-- A transport oracle that always yields HTTP 200 with a decodable body and
at least one choice. -/
def alwaysSucceeds (api : ChatRequest → Except String HttpReply) : Prop :=
  ∀ req, ∃ reply, api req = .ok reply ∧ reply.status = 200 ∧
    ∃ resp, reply.decoded = some resp ∧ resp.choices ≠ []

-- unfolding lemmas for each outcome of askQuestionWithHistory ----------------

theorem askQuestion_sendError (cfg : ProviderConfig) (q : String) (h : List Message)
    (api : ChatRequest → Except String HttpReply) (m : String)
    (hapi : api (buildRequest cfg (h ++ [Message.mk "user" q])) = .error m) :
    askQuestionWithHistory cfg q h api =
      (.error (.sendError m), h ++ [Message.mk "user" q]) := by
  simp only [askQuestionWithHistory, hapi]

theorem askQuestion_apiError (cfg : ProviderConfig) (q : String) (h : List Message)
    (api : ChatRequest → Except String HttpReply) (reply : HttpReply)
    (hapi : api (buildRequest cfg (h ++ [Message.mk "user" q])) = .ok reply)
    (hst : reply.status ≠ 200) :
    askQuestionWithHistory cfg q h api =
      (.error (.apiError reply.status reply.body), h ++ [Message.mk "user" q]) := by
  simp only [askQuestionWithHistory, hapi]
  rw [if_pos hst]

theorem askQuestion_decodeError (cfg : ProviderConfig) (q : String) (h : List Message)
    (api : ChatRequest → Except String HttpReply) (reply : HttpReply)
    (hapi : api (buildRequest cfg (h ++ [Message.mk "user" q])) = .ok reply)
    (hst : reply.status = 200) (hdec : reply.decoded = none) :
    askQuestionWithHistory cfg q h api =
      (.error .decodeError, h ++ [Message.mk "user" q]) := by
  simp only [askQuestionWithHistory, hapi, hdec]
  rw [if_neg (by rw [hst]; simp)]

theorem askQuestion_emptyResponse (cfg : ProviderConfig) (q : String) (h : List Message)
    (api : ChatRequest → Except String HttpReply) (reply : HttpReply) (resp : ChatResponse)
    (hapi : api (buildRequest cfg (h ++ [Message.mk "user" q])) = .ok reply)
    (hst : reply.status = 200) (hdec : reply.decoded = some resp)
    (hch : resp.choices = []) :
    askQuestionWithHistory cfg q h api =
      (.error .emptyResponse, h ++ [Message.mk "user" q]) := by
  simp only [askQuestionWithHistory, hapi, hdec, hch]
  rw [if_neg (by rw [hst]; simp)]

theorem askQuestion_success (cfg : ProviderConfig) (q : String) (h : List Message)
    (api : ChatRequest → Except String HttpReply) (reply : HttpReply) (resp : ChatResponse)
    (choice : Choice) (rest : List Choice)
    (hapi : api (buildRequest cfg (h ++ [Message.mk "user" q])) = .ok reply)
    (hst : reply.status = 200) (hdec : reply.decoded = some resp)
    (hch : resp.choices = choice :: rest) :
    askQuestionWithHistory cfg q h api =
      (.ok (choice.message.content, resp.usage),
        h ++ [Message.mk "user" q, Message.mk "assistant" choice.message.content]) := by
  simp only [askQuestionWithHistory, hapi, hdec, hch]
  rw [if_neg (by rw [hst]; simp)]
  simp [List.append_assoc]

/-- listStartsWith sub l: sub is an initial segment of l. -/
def listStartsWith : List Char → List Char → Bool
  | [], _ => true
  | _ :: _, [] => false
  | a :: as, b :: bs => a == b && listStartsWith as bs

/-- listContains sub l: sub occurs contiguously inside l (Go strings.Contains). -/
def listContains (sub : List Char) : List Char → Bool
  | [] => listStartsWith sub []
  | b :: bs => listStartsWith sub (b :: bs) || listContains sub bs

theorem listStartsWith_append (sub t : List Char) :
    listStartsWith sub (sub ++ t) = true := by
  induction sub with
  | nil => rfl
  | cons a as ih => simp [listStartsWith, ih]

theorem listContains_of_startsWith (sub l : List Char)
    (h : listStartsWith sub l = true) : listContains sub l = true := by
  cases l with
  | nil => exact h
  | cons b bs => simp [listContains, h]

theorem listContains_append_left (sub : List Char) (pre t : List Char)
    (h : listContains sub t = true) : listContains sub (pre ++ t) = true := by
  induction pre with
  | nil => simpa using h
  | cons b bs ih => simp [listContains, ih]

theorem listContains_sandwich (sub pre post : List Char) :
    listContains sub (pre ++ (sub ++ post)) = true :=
  listContains_append_left sub pre _
    (listContains_of_startsWith sub _ (listStartsWith_append sub post))

theorem runExchanges_length (cfg : ProviderConfig)
    (steps : List (String × (ChatRequest → Except String HttpReply)))
    (hs : ∀ s ∈ steps, alwaysSucceeds s.2) :
    ∀ h, (runExchanges cfg steps h).length = h.length + 2 * steps.length := by
  induction steps with
  | nil => intro h; simp [runExchanges]
  | cons s rest ih =>
    intro h
    obtain ⟨q, api⟩ := s
    obtain ⟨reply, hapi, hst, resp, hdec, hch⟩ :=
      hs (q, api) (List.mem_cons_self ..) (buildRequest cfg (h ++ [Message.mk "user" q]))
    cases hc : resp.choices with
    | nil => exact absurd hc hch
    | cons choice crest =>
      have heq := askQuestion_success cfg q h api reply resp choice crest hapi hst hdec hc
      simp only [runExchanges]
      rw [heq]
      have := ih (fun x hx => hs x (List.mem_cons_of_mem _ hx))
        (h ++ [Message.mk "user" q, Message.mk "assistant" choice.message.content])
      rw [this]
      simp only [List.length_append, List.length_cons, List.length_nil, List.length]
      omega

/-- C1: every successful exchange appends exactly the user question followed
by the assistant answer to the history, and after N always-successful
exchanges starting from the empty history the history has length 2N and
turnCount equals N. -/
theorem claimC1_history_growth :
    (∀ cfg q h api a u, (askQuestionWithHistory cfg q h api).1 = .ok (a, u) →
      (askQuestionWithHistory cfg q h api).2 =
        h ++ [Message.mk "user" q, Message.mk "assistant" a]) ∧
    ∀ cfg steps, (∀ s ∈ steps, alwaysSucceeds s.2) →
      (runExchanges cfg steps []).length = 2 * steps.length ∧
      turnCount (runExchanges cfg steps []) = steps.length := by
  constructor
  · intro cfg q h api a u hok
    cases hapi : api (buildRequest cfg (h ++ [Message.mk "user" q])) with
    | error m =>
      rw [askQuestion_sendError cfg q h api m hapi] at hok
      simp at hok
    | ok reply =>
      by_cases hst : reply.status = 200
      · cases hdec : reply.decoded with
        | none =>
          rw [askQuestion_decodeError cfg q h api reply hapi hst hdec] at hok
          simp at hok
        | some resp =>
          cases hch : resp.choices with
          | nil =>
            rw [askQuestion_emptyResponse cfg q h api reply resp hapi hst hdec hch] at hok
            simp at hok
          | cons choice crest =>
            have heq := askQuestion_success cfg q h api reply resp choice crest hapi hst hdec hch
            rw [heq] at hok ⊢
            simp only [Except.ok.injEq, Prod.mk.injEq] at hok
            rw [hok.1]
      · rw [askQuestion_apiError cfg q h api reply hapi hst] at hok
        simp at hok
  · intro cfg steps hs
    have hlen := runExchanges_length cfg steps hs []
    simp only [List.length_nil, Nat.zero_add] at hlen
    refine ⟨hlen, ?_⟩
    unfold turnCount
    rw [hlen]
    omega

/-- Fixed provider configuration used in concrete witnesses. -/
def cfgW : ProviderConfig :=
  { apiKey := "key", baseURL := "", model := "", maxTokens := 0, extra := [] }

/-- Transport oracle used in the C1 witness: HTTP 200, one choice, usage 10/5/15. -/
def apiOkW : ChatRequest → Except String HttpReply :=
  fun _ => .ok ⟨200, "", some ⟨[⟨Message.mk "assistant" "hello"⟩], ⟨10, 5, 15⟩⟩⟩

theorem claimC1_witness :
    (runExchanges cfgW [("hi", apiOkW)] []).length = 2 ∧
    turnCount (runExchanges cfgW [("hi", apiOkW)] []) = 1 :=
  claimC1_history_growth.2 cfgW [("hi", apiOkW)]
    (by
      intro s hsmem
      simp only [List.mem_singleton] at hsmem
      subst hsmem
      intro req
      exact ⟨⟨200, "", some ⟨[⟨Message.mk "assistant" "hello"⟩], ⟨10, 5, 15⟩⟩⟩, rfl, rfl,
        ⟨[⟨Message.mk "assistant" "hello"⟩], ⟨10, 5, 15⟩⟩, rfl, by decide⟩)

/-- C2 (amended): on HTTP 200 with zero choices the send fails with the
empty-response error, the history keeps the appended user message with no
assistant message and no other element changed, its length grows by exactly
one, and it is odd whenever the prior history length was even. -/
theorem claimC2_emptyResponse_amended (cfg : ProviderConfig) (q : String)
    (h : List Message) (api : ChatRequest → Except String HttpReply)
    (reply : HttpReply) (resp : ChatResponse)
    (hapi : api (buildRequest cfg (h ++ [Message.mk "user" q])) = .ok reply)
    (hst : reply.status = 200) (hdec : reply.decoded = some resp)
    (hch : resp.choices = []) :
    (askQuestionWithHistory cfg q h api).1 = .error .emptyResponse ∧
    (askQuestionWithHistory cfg q h api).2 = h ++ [Message.mk "user" q] ∧
    (askQuestionWithHistory cfg q h api).2.length = h.length + 1 ∧
    (h.length % 2 = 0 → (askQuestionWithHistory cfg q h api).2.length % 2 = 1) := by
  have heq := askQuestion_emptyResponse cfg q h api reply resp hapi hst hdec hch
  rw [heq]
  refine ⟨rfl, rfl, by simp, ?_⟩
  intro he
  simp only [List.length_append, List.length_cons, List.length_nil]
  omega

/-- Transport oracle returning HTTP 200 with an empty choices array. -/
def apiEmptyW : ChatRequest → Except String HttpReply :=
  fun _ => .ok ⟨200, "", some ⟨[], ⟨0, 0, 0⟩⟩⟩

/-- C2 counterexample: from a history already holding one orphaned user
message, a 200/zero-choices reply leaves a history of length 2, which is
even, so the claim's "its length is odd" fails as universally stated. -/
theorem claimC2_counterexample :
    (askQuestionWithHistory cfgW "q" [Message.mk "user" "x"] apiEmptyW).1 =
        .error .emptyResponse ∧
    (askQuestionWithHistory cfgW "q" [Message.mk "user" "x"] apiEmptyW).2.length = 2 ∧
    (askQuestionWithHistory cfgW "q" [Message.mk "user" "x"] apiEmptyW).2.length % 2 = 0 := by
  refine ⟨?_, ?_, ?_⟩ <;> rfl

theorem claimC2_witness :
    (askQuestionWithHistory cfgW "hi" [] apiEmptyW).1 = .error .emptyResponse ∧
    (askQuestionWithHistory cfgW "hi" [] apiEmptyW).2 = [] ++ [Message.mk "user" "hi"] ∧
    (askQuestionWithHistory cfgW "hi" [] apiEmptyW).2.length =
        List.length ([] : List Message) + 1 ∧
    (List.length ([] : List Message) % 2 = 0 →
      (askQuestionWithHistory cfgW "hi" [] apiEmptyW).2.length % 2 = 1) :=
  claimC2_emptyResponse_amended cfgW "hi" [] apiEmptyW ⟨200, "", some ⟨[], ⟨0, 0, 0⟩⟩⟩
    ⟨[], ⟨0, 0, 0⟩⟩ rfl rfl rfl rfl

/-- C3: a non-200 status makes the send fail with an apiError carrying the
status and the raw body; the rendered error text contains both the decimal
status code and the body text, and the history keeps the appended user
message with no assistant reply. -/
theorem claimC3_apiError_contains (cfg : ProviderConfig) (q : String)
    (h : List Message) (api : ChatRequest → Except String HttpReply) (reply : HttpReply)
    (hapi : api (buildRequest cfg (h ++ [Message.mk "user" q])) = .ok reply)
    (hst : reply.status ≠ 200) :
    (askQuestionWithHistory cfg q h api).1 =
        .error (.apiError reply.status reply.body) ∧
    listContains (toString reply.status).data
        (errMsgList (.apiError reply.status reply.body)) = true ∧
    listContains reply.body.data
        (errMsgList (.apiError reply.status reply.body)) = true ∧
    (askQuestionWithHistory cfg q h api).2 = h ++ [Message.mk "user" q] := by
  have heq := askQuestion_apiError cfg q h api reply hapi hst
  rw [heq]
  refine ⟨rfl, ?_, ?_, rfl⟩
  · show listContains (toString reply.status).data
      ("API返回错误 ".data ++ (toString reply.status).data ++ ": ".data ++ reply.body.data) = true
    rw [List.append_assoc, List.append_assoc]
    exact listContains_sandwich _ _ _
  · show listContains reply.body.data
      ("API返回错误 ".data ++ (toString reply.status).data ++ ": ".data ++ reply.body.data) = true
    have := listContains_sandwich reply.body.data
      ("API返回错误 ".data ++ (toString reply.status).data ++ ": ".data) []
    rw [List.append_nil] at this
    exact this

/-- Transport oracle returning HTTP 401 with body "invalid key". -/
def api401W : ChatRequest → Except String HttpReply :=
  fun _ => .ok ⟨401, "invalid key", none⟩

theorem claimC3_witness :
    (askQuestionWithHistory cfgW "hi" [] api401W).1 =
        .error (.apiError 401 "invalid key") ∧
    listContains (toString 401).data (errMsgList (.apiError 401 "invalid key")) = true ∧
    listContains "invalid key".data (errMsgList (.apiError 401 "invalid key")) = true ∧
    (askQuestionWithHistory cfgW "hi" [] api401W).2 = [] ++ [Message.mk "user" "hi"] :=
  claimC3_apiError_contains cfgW "hi" [] api401W ⟨401, "invalid key", none⟩ rfl (by decide)

/-- Observable prints of the interactive loop relevant to the claims. -/
inductive Event where
  | warnInvalid
  | goodbye
  | screenCleared
  | resetConfirmed
  | historyShown
  | helpShown
  | echoCleaned (s : String)
  | answer (s : String)
  | errorWithHint (e : ChatError)
deriving DecidableEq, Repr

/-- Result of processing one scanned line of the interactive loop. -/
structure StepOut where
  history : List Message
  terminated : Bool
  apiCalled : Bool
  events : List Event
deriving DecidableEq, Repr

/-- strings.TrimSpace on a String (applied to each scanned line). -/
def goTrimSpaceStr (s : String) : String :=
  ⟨goTrimSpace s.data⟩

/-- ASCII restriction of Go strings.ToLower; the session commands it is
compared against are pure ASCII. -/
def toLowerAscii (s : String) : String :=
  ⟨s.data.map (fun c => if 'A' ≤ c ∧ c ≤ 'Z' then Char.ofNat (c.toNat + 32) else c)⟩

/-- Dispatch of a sanitized non-command line as a question. -/
def questionStep (cfg : ProviderConfig) (api : ChatRequest → Except String HttpReply)
    (h : List Message) (cleaned : String) (pre : List Event) : StepOut :=
  match askQuestionWithHistory cfg cleaned h api with
  | (.ok (ans, _), h') => ⟨h', false, true, pre ++ [.answer ans]⟩
  | (.error e, h') => ⟨h', false, true, pre ++ [.errorWithHint e]⟩

/-- One iteration body of runInteractiveChatWithHistory for one scanned line:
trim, skip empties, sanitize, dispatch session commands, else send. -/
def interactiveStep (cfg : ProviderConfig) (api : ChatRequest → Except String HttpReply)
    (h : List Message) (line : String) : StepOut :=
  let input := goTrimSpaceStr line
  if input = "" then ⟨h, false, false, []⟩
  else
    let cleaned := cleanInput input
    if cleaned = "" then ⟨h, false, false, [.warnInvalid]⟩
    else
      let lower := toLowerAscii cleaned
      if lower = "quit" ∨ lower = "exit" then ⟨h, true, false, [.goodbye]⟩
      else if lower = "clear" then ⟨h, false, false, [.screenCleared]⟩
      else if lower = "reset" then ⟨[], false, false, [.resetConfirmed]⟩
      else if lower = "history" then ⟨h, false, false, [.historyShown]⟩
      else if lower = "help" then ⟨h, false, false, [.helpShown]⟩
      else
        questionStep cfg api h cleaned
          (if cleaned ≠ input then [Event.echoCleaned cleaned] else [])

/-- The interactive loop over a finite sequence of input lines; returns the
final history, the number of HTTP exchanges issued and the emitted events.
List exhaustion models end-of-input (scanner.Scan returning false). -/
def runLoop (cfg : ProviderConfig) (api : ChatRequest → Except String HttpReply) :
    List String → List Message → List Message × Nat × List Event
  | [], h => (h, 0, [])
  | line :: rest, h =>
    let st := interactiveStep cfg api h line
    if st.terminated then (st.history, (if st.apiCalled then 1 else 0), st.events)
    else
      let r := runLoop cfg api rest st.history
      (r.1, (if st.apiCalled then 1 else 0) + r.2.1, st.events ++ r.2.2)

theorem questionStep_shape (cfg : ProviderConfig)
    (api : ChatRequest → Except String HttpReply) (h : List Message)
    (cleaned : String) (pre : List Event) :
    (questionStep cfg api h cleaned pre).terminated = false ∧
    (questionStep cfg api h cleaned pre).apiCalled = true ∧
    (questionStep cfg api h cleaned pre).history =
      (askQuestionWithHistory cfg cleaned h api).2 ∧
    (∀ e, (askQuestionWithHistory cfg cleaned h api).1 = .error e →
      Event.errorWithHint e ∈ (questionStep cfg api h cleaned pre).events) := by
  unfold questionStep
  rcases hq : askQuestionWithHistory cfg cleaned h api with ⟨r, h'⟩
  cases r with
  | ok ru =>
    obtain ⟨ans, u⟩ := ru
    refine ⟨rfl, rfl, rfl, ?_⟩
    intro e he
    simp at he
  | error e' =>
    refine ⟨rfl, rfl, rfl, ?_⟩
    intro e he
    simp only [Except.error.injEq] at he
    subst he
    simp

/-- C6: the interactive loop step terminates only on the quit/exit commands
(end-of-input is the exhaustion of the input list in runLoop); whenever a
dispatched question's send returns an error, the step does not terminate and
the error (with its hint) is printed. -/
theorem claimC6_loop_survives_errors :
    (∀ cfg api h line, (interactiveStep cfg api h line).terminated = true ↔
      (goTrimSpaceStr line ≠ "" ∧ cleanInput (goTrimSpaceStr line) ≠ "" ∧
        (toLowerAscii (cleanInput (goTrimSpaceStr line)) = "quit" ∨
          toLowerAscii (cleanInput (goTrimSpaceStr line)) = "exit"))) ∧
    (∀ cfg api h line e,
      (interactiveStep cfg api h line).apiCalled = true →
      (askQuestionWithHistory cfg (cleanInput (goTrimSpaceStr line)) h api).1 = .error e →
      (interactiveStep cfg api h line).terminated = false ∧
      Event.errorWithHint e ∈ (interactiveStep cfg api h line).events) := by
  constructor
  · intro cfg api h line
    simp only [interactiveStep]
    split_ifs with h1 h2 h3 h4 h5 h6 h7
    · exact iff_of_false (by simp) (fun hp => hp.1 h1)
    · exact iff_of_false (by simp) (fun hp => hp.2.1 h2)
    · exact iff_of_true rfl ⟨h1, h2, h3⟩
    · exact iff_of_false (by simp) (fun hp => h3 hp.2.2)
    · exact iff_of_false (by simp) (fun hp => h3 hp.2.2)
    · exact iff_of_false (by simp) (fun hp => h3 hp.2.2)
    · exact iff_of_false (by simp) (fun hp => h3 hp.2.2)
    · exact iff_of_false
        (by simp [(questionStep_shape cfg api h (cleanInput (goTrimSpaceStr line))
          [Event.echoCleaned (cleanInput (goTrimSpaceStr line))]).1])
        (fun hp => h3 hp.2.2)
    · exact iff_of_false
        (by simp [(questionStep_shape cfg api h (cleanInput (goTrimSpaceStr line)) []).1])
        (fun hp => h3 hp.2.2)
  · intro cfg api h line e hcalled herr
    simp only [interactiveStep] at hcalled ⊢
    split_ifs at hcalled ⊢ with h1 h2 h3 h4 h5 h6 h7 h8
    · have hq := questionStep_shape cfg api h (cleanInput (goTrimSpaceStr line))
        [Event.echoCleaned (cleanInput (goTrimSpaceStr line))]
      exact ⟨hq.1, hq.2.2.2 e herr⟩
    · have hq := questionStep_shape cfg api h (cleanInput (goTrimSpaceStr line)) []
      exact ⟨hq.1, hq.2.2.2 e herr⟩

theorem claimC6_witness :
    (interactiveStep cfgW api401W [] "hello").terminated = false ∧
    Event.errorWithHint (.apiError 401 "invalid key") ∈
      (interactiveStep cfgW api401W [] "hello").events :=
  claimC6_loop_survives_errors.2 cfgW api401W [] "hello"
    (.apiError 401 "invalid key") rfl rfl

/-- C9: the reset command empties the history (length 0, turnCount 0) without
terminating the loop and without an HTTP call, and the input sequence
["reset", "quit"] on an empty history yields the reset confirmation, then the
goodbye, with zero HTTP calls issued. -/
theorem claimC9_reset :
    (∀ cfg api h, interactiveStep cfg api h "reset" =
        ⟨[], false, false, [.resetConfirmed]⟩ ∧
      (interactiveStep cfg api h "reset").history.length = 0 ∧
      turnCount (interactiveStep cfg api h "reset").history = 0) ∧
    (∀ cfg api, runLoop cfg api ["reset", "quit"] [] =
        ([], 0, [.resetConfirmed, .goodbye])) :=
  ⟨fun cfg api h => by
      have h1 : interactiveStep cfg api h "reset" = ⟨[], false, false, [.resetConfirmed]⟩ := rfl
      exact ⟨h1, by rw [h1]; rfl, by rw [h1]; rfl⟩,
    fun _ _ => rfl⟩

/-- Outcome of runSimpleChat after the configuration has loaded. -/
inductive RunOutcome where
  | providerNotFound (name : String)
  | missingKey (name : String)
  | singleShot (result : Except ChatError (String × Usage) × List Message)
  | interactive (result : List Message × Nat × List Event)
deriving Repr

/-- Provider auto-selection of runSimpleChat: with no explicitly requested
provider, take the first enumerated provider with a non-empty key.  The Go
source ranges over a map; the model takes the enumeration order as the list
order. -/
def selectProvider (requested : String)
    (providers : List (String × ProviderConfig)) : String :=
  if requested = "" then
    match providers.find? (fun p => p.2.apiKey != "") with
    | some p => p.1
    | none => requested
  else requested

/-- runSimpleChat after config load: provider selection, lookup, key check,
then single-shot mode (args nonempty) or the interactive loop. -/
def runSimpleChat (requested : String) (providers : List (String × ProviderConfig))
    (args : List String) (api : ChatRequest → Except String HttpReply)
    (inputs : List String) : RunOutcome :=
  let chosen := selectProvider requested providers
  match providers.find? (fun p => p.1 == chosen) with
  | none => .providerNotFound chosen
  | some p =>
    if p.2.apiKey = "" then .missingKey chosen
    else
      match args with
      | q :: _ => .singleShot (askQuestionWithHistory p.2 q [] api)
      | [] => .interactive (runLoop p.2 api inputs [])

/-- A configuration-error abort (no loop, no exchange). -/
def isConfigAbort : RunOutcome → Bool
  | .providerNotFound _ => true
  | .missingKey _ => true
  | .singleShot _ => false
  | .interactive _ => false

/-- Number of HTTP exchanges issued by an outcome. -/
def outcomeCalls : RunOutcome → Nat
  | .providerNotFound _ => 0
  | .missingKey _ => 0
  | .singleShot _ => 1
  | .interactive r => r.2.1

/-- C7: with no explicitly requested provider, the first enumerated provider
with a non-empty key is selected; and when no provider has a non-empty key,
the run aborts with a configuration error (provider-not-found or missing-key)
before any loop iteration or HTTP exchange. -/
theorem claimC7_provider_selection :
    (∀ (pre post : List (String × ProviderConfig)) (n : String) (c : ProviderConfig),
      (∀ p ∈ pre, p.2.apiKey = "") → c.apiKey ≠ "" →
      selectProvider "" (pre ++ (n, c) :: post) = n) ∧
    (∀ providers args api inputs, (∀ p ∈ providers, p.2.apiKey = "") →
      isConfigAbort (runSimpleChat "" providers args api inputs) = true ∧
      outcomeCalls (runSimpleChat "" providers args api inputs) = 0) := by
  constructor
  · intro pre post n c hpre hc
    have hfind : (pre ++ (n, c) :: post).find? (fun p => p.2.apiKey != "") = some (n, c) := by
      induction pre with
      | nil =>
        simp only [List.nil_append]
        rw [List.find?_cons_of_pos]
        simpa using hc
      | cons p ps ih =>
        simp only [List.cons_append]
        rw [List.find?_cons_of_neg]
        · exact ih (fun x hx => hpre x (List.mem_cons_of_mem _ hx))
        · simp [hpre p (List.mem_cons_self ..)]
    simp [selectProvider, hfind]
  · intro providers args api inputs hall
    have hfind : providers.find? (fun p => p.2.apiKey != "") = none := by
      rw [List.find?_eq_none]
      intro p hp
      simp [hall p hp]
    have hsel : selectProvider "" providers = "" := by
      simp [selectProvider, hfind]
    simp only [runSimpleChat, hsel]
    cases hf : providers.find? (fun p => p.1 == "") with
    | none => exact ⟨rfl, rfl⟩
    | some p =>
      have hp : p ∈ providers := List.mem_of_find?_eq_some hf
      simp [isConfigAbort, outcomeCalls, hall p hp]

/-- Provider configuration with an empty key, used in witnesses. -/
def emptyKeyCfg : ProviderConfig :=
  { apiKey := "", baseURL := "", model := "", maxTokens := 0, extra := [] }

theorem claimC7_witness :
    selectProvider "" ([("a", emptyKeyCfg)] ++ ("b", cfgW) :: []) = "b" ∧
    (isConfigAbort (runSimpleChat "" [("a", emptyKeyCfg)] [] apiOkW []) = true ∧
      outcomeCalls (runSimpleChat "" [("a", emptyKeyCfg)] [] apiOkW []) = 0) :=
  ⟨claimC7_provider_selection.1 [("a", emptyKeyCfg)] [] "b" cfgW
      (by intro p hp; simp only [List.mem_singleton] at hp; subst hp; rfl) (by decide),
    claimC7_provider_selection.2 [("a", emptyKeyCfg)] [] apiOkW []
      (by intro p hp; simp only [List.mem_singleton] at hp; subst hp; rfl)⟩

/-- UTF-8 encoding of one scalar value.  Go strings are UTF-8 byte sequences;
`len(s)` and the slice `s[:n]` of the source act on these bytes. -/
def utf8Encode (c : Char) : List Nat :=
  let n := c.toNat
  if n < 0x80 then [n]
  else if n < 0x800 then [0xC0 + n / 0x40, 0x80 + n % 0x40]
  else if n < 0x10000 then
    [0xE0 + n / 0x1000, 0x80 + n / 0x40 % 0x40, 0x80 + n % 0x40]
  else [0xF0 + n / 0x40000, 0x80 + n / 0x1000 % 0x40, 0x80 + n / 0x40 % 0x40,
    0x80 + n % 0x40]

/-- Byte view of a Go string. -/
def strBytes (s : String) : List Nat :=
  (s.data.map utf8Encode).flatten

/-- truncateString 截断长字符串: Go `if len(s) <= maxLen { return s };
return s[:maxLen] + "..."` on the byte view. -/
def truncateString (s : List Nat) (maxLen : Nat) : List Nat :=
  if s.length ≤ maxLen then s else s.take maxLen ++ strBytes "..."

/-- showHistory's rendering of one transcript line's content: user content in
full, assistant content through truncateString with maxLen 100, other roles
not printed. -/
def showHistoryLine (m : Message) : List Nat :=
  if m.role = "user" then strBytes m.content
  else if m.role = "assistant" then truncateString (strBytes m.content) 100
  else []

/-- An assistant message of 40 characters (all multibyte). -/
def longChineseMsg : Message :=
  Message.mk "assistant" (String.mk (List.replicate 40 '中'))

set_option maxRecDepth 4000 in
/-- C8 counterexample: a 40-character assistant message (at most 100
characters) is nevertheless truncated by the history display, because the
source truncates by UTF-8 byte length (here 120), not character count. -/
theorem claimC8_counterexample :
    longChineseMsg.content.data.length = 40 ∧ 40 ≤ 100 ∧
    showHistoryLine longChineseMsg ≠ strBytes longChineseMsg.content := by
  refine ⟨by decide, by decide, by decide⟩

/-- C8 (amended): the history display truncates assistant messages by UTF-8
byte length, not character count: contents of at most 100 bytes are shown
unmodified, longer ones as their first 100 bytes followed by the "..."
marker (possibly splitting a multibyte character).  For pure-ASCII contents
the byte length equals the character count, so the character-based reading
holds there. -/
theorem claimC8_truncation_by_bytes :
    (∀ m : Message, m.role = "assistant" →
      ((strBytes m.content).length ≤ 100 → showHistoryLine m = strBytes m.content) ∧
      (100 < (strBytes m.content).length →
        showHistoryLine m = (strBytes m.content).take 100 ++ strBytes "...")) ∧
    (∀ s : String, (∀ c ∈ s.data, c.toNat < 128) →
      strBytes s = s.data.map Char.toNat ∧ (strBytes s).length = s.data.length) := by
  constructor
  · intro m hrole
    have hshow : showHistoryLine m = truncateString (strBytes m.content) 100 := by
      unfold showHistoryLine
      rw [hrole]
      rfl
    constructor
    · intro hle
      rw [hshow]
      unfold truncateString
      rw [if_pos hle]
    · intro hgt
      rw [hshow]
      unfold truncateString
      rw [if_neg (by omega)]
  · intro s hall
    have hmap : ∀ l : List Char, (∀ c ∈ l, c.toNat < 128) →
        (l.map utf8Encode).flatten = l.map Char.toNat := by
      intro l
      induction l with
      | nil => intro _; rfl
      | cons a as ih =>
        intro hl
        have ha : a.toNat < 128 := hl a (List.mem_cons_self ..)
        have henc : utf8Encode a = [a.toNat] := by
          unfold utf8Encode
          rw [if_pos (by omega)]
        simp only [List.map_cons, List.flatten_cons, henc,
          ih (fun c hc => hl c (List.mem_cons_of_mem _ hc))]
        rfl
    have h1 : strBytes s = s.data.map Char.toNat := hmap s.data hall
    exact ⟨h1, by rw [h1]; simp⟩

/-- A 150-character pure-ASCII assistant message. -/
def ascii150Msg : Message :=
  Message.mk "assistant" (String.mk (List.replicate 150 'a'))

/-- A 100-character pure-ASCII assistant message. -/
def ascii100Msg : Message :=
  Message.mk "assistant" (String.mk (List.replicate 100 'a'))

set_option maxRecDepth 8000 in
theorem claimC8_witness :
    showHistoryLine ascii150Msg =
      (strBytes ascii150Msg.content).take 100 ++ strBytes "..." ∧
    showHistoryLine ascii100Msg = strBytes ascii100Msg.content ∧
    strBytes ascii150Msg.content = ascii150Msg.content.data.map Char.toNat :=
  ⟨(claimC8_truncation_by_bytes.1 ascii150Msg rfl).2 (by decide),
    (claimC8_truncation_by_bytes.1 ascii100Msg rfl).1 (by decide),
    (claimC8_truncation_by_bytes.2 ascii150Msg.content (by decide)).1⟩

theorem askQuestion_appends_user (cfg : ProviderConfig) (q : String)
    (h : List Message) (api : ChatRequest → Except String HttpReply) :
    ∃ extra, (askQuestionWithHistory cfg q h api).2 =
      h ++ Message.mk "user" q :: extra := by
  cases hapi : api (buildRequest cfg (h ++ [Message.mk "user" q])) with
  | error m => exact ⟨[], by rw [askQuestion_sendError cfg q h api m hapi]⟩
  | ok reply =>
    by_cases hst : reply.status = 200
    · cases hdec : reply.decoded with
      | none =>
        exact ⟨[], by rw [askQuestion_decodeError cfg q h api reply hapi hst hdec]⟩
      | some resp =>
        cases hch : resp.choices with
        | nil =>
          exact ⟨[], by rw [askQuestion_emptyResponse cfg q h api reply resp hapi hst hdec hch]⟩
        | cons choice crest =>
          exact ⟨[Message.mk "assistant" choice.message.content],
            by rw [askQuestion_success cfg q h api reply resp choice crest hapi hst hdec hch]⟩
    · exact ⟨[], by rw [askQuestion_apiError cfg q h api reply hapi hst]⟩

/-- C10: in single-shot mode the positional argument is handed to
askQuestionWithHistory verbatim, which records it unmodified as the user
message; only the interactive loop passes its lines through cleanInput. -/
theorem claimC10_singleshot_bypasses_sanitizer :
    (∀ requested providers q rest api inputs p,
      providers.find? (fun x => x.1 == selectProvider requested providers) = some p →
      p.2.apiKey ≠ "" →
      runSimpleChat requested providers (q :: rest) api inputs =
        .singleShot (askQuestionWithHistory p.2 q [] api)) ∧
    (∀ cfg q h api, ∃ extra,
      (askQuestionWithHistory cfg q h api).2 = h ++ Message.mk "user" q :: extra) ∧
    (∀ cfg api h line, (interactiveStep cfg api h line).apiCalled = true →
      ∃ extra, (interactiveStep cfg api h line).history =
        h ++ Message.mk "user" (cleanInput (goTrimSpaceStr line)) :: extra) := by
  refine ⟨?_, askQuestion_appends_user, ?_⟩
  · intro requested providers q rest api inputs p hfind hkey
    simp only [runSimpleChat, hfind]
    rw [if_neg hkey]
  · intro cfg api h line hcalled
    simp only [interactiveStep] at hcalled ⊢
    split_ifs at hcalled ⊢ with h1 h2 h3 h4 h5 h6 h7 h8
    · have hq := questionStep_shape cfg api h (cleanInput (goTrimSpaceStr line))
        [Event.echoCleaned (cleanInput (goTrimSpaceStr line))]
      rw [hq.2.2.1]
      exact askQuestion_appends_user cfg (cleanInput (goTrimSpaceStr line)) h api
    · have hq := questionStep_shape cfg api h (cleanInput (goTrimSpaceStr line)) []
      rw [hq.2.2.1]
      exact askQuestion_appends_user cfg (cleanInput (goTrimSpaceStr line)) h api

theorem claimC10_witness :
    runSimpleChat "p" [("p", cfgW)] ["a\x01  b"] apiOkW [] =
      .singleShot (askQuestionWithHistory cfgW "a\x01  b" [] apiOkW) ∧
    cleanInput "a\x01  b" ≠ "a\x01  b" ∧
    (askQuestionWithHistory cfgW "a\x01  b" [] apiOkW).2 =
      [] ++ Message.mk "user" "a\x01  b" :: [Message.mk "assistant" "hello"] :=
  ⟨claimC10_singleshot_bypasses_sanitizer.1 "p" [("p", cfgW)] "a\x01  b" [] apiOkW []
      ("p", cfgW) rfl (by decide),
    by decide, by decide⟩
